import Mathlib

/-!
Verification of the phase-map sequence codec and validation pipeline of
`DHM_Autobot_4well.py` (DHM file autobot 4-well).

The pipeline is shallowly embedded as follows.

* A 4-byte scalar slot of the "bnr" container (an `i32` or `f32` value) is
  modelled by its bit pattern, a natural number (`Word`); files are lists of
  such words, and `wordBytes`/`fileBytes` refine a word list to the byte
  stream that `numpy.ndarray.tofile` produces (4 bytes per scalar,
  little-endian, no padding).
* The timestamp table (`tif2bnr`, lines 117-127) is modelled row by row:
  a row is the whitespace-split token list of one line, where a token is
  `some w` if Python's `float(...)` (followed by `numpy.single`) parses it
  to the f32 pattern `w`, and `none` if `float(...)` raises `ValueError`.
* `tif2bnr` (lines 105-159) is modelled by a function returning the words
  written to the destination, whether the destination was opened (hence
  truncated/created), and the exception, if any, that aborted the run.
* The BNR check of `run_process` (lines 426-458) is modelled by `readBNR`
  (the sequence of `numpy.fromfile` reads) and `bnrVerdict` (the
  `min < -100 or max > 100` test on the first frame).  A finite f32 value
  is represented exactly by the integer `f32scaled b` = value * 2^149, so
  the range bounds become `±100 * 2^149`; NaN patterns are not modelled
  (numpy's `min`/`max` propagate NaN), so range-check theorems assume the
  first frame holds finite values only.
* Strings manipulated by the registration-log translator and by the path
  assembly of `run_process` are modelled as `List Char` (Python `str`),
  with structurally recursive split/strip/replace helpers mirroring the
  Python string methods.
-/

set_option maxRecDepth 8000

namespace DHM

/-- Bit pattern of one 4-byte scalar slot (an `i32` or `f32` value). -/
abbrev Word := Nat

/-- One whitespace-split token of a timestamp-table row: `some w` if
`numpy.single(float(tok))` yields the f32 pattern `w`, `none` if `float`
raises `ValueError`. -/
abbrev Tok := Option Word

/-- One row of the timestamp table: the token list of one line after
`line.split()`. -/
abbrev Row := List Tok

/-- One decoded image page: rows of sample-value words, row-major. -/
abbrev Page := List (List Word)

/-- The exception that aborts a `tif2bnr` run: `parse` for the
`IndexError`/`ValueError` raised while parsing the timestamp table,
`decode` for a failing `imread`/indexing of the input stack, `zeroDiv`
for the `ZeroDivisionError` in `x = 100 / nImages`. -/
inductive EncError
  | parse
  | decode
  | zeroDiv
deriving DecidableEq

/-- Outcome of a `tif2bnr` run: whether `open(output_file, 'w')` was reached
(truncating/creating the destination), the words written before the run
ended, and the aborting exception, if any. -/
structure EncResult where
  opened : Bool
  written : List Word
  err : Option EncError
deriving DecidableEq

/-- Timestamp-table parsing loop of `tif2bnr` (lines 117-126): for every
line, `numbers = line.split()` and `time = numpy.single(float(numbers[3]))`;
a row with fewer than 4 tokens raises `IndexError`, a non-numeric token 3
raises `ValueError`; the loop aborts at the first bad row. -/
def parseTimestamps : List Row → Except EncError (List Word)
  | [] => .ok []
  | row :: rest =>
    match row[3]? with
    | none => .error .parse
    | some none => .error .parse
    | some (some v) =>
      match parseTimestamps rest with
      | .error e => .error e
      | .ok ts => .ok (v :: ts)

/-- Value written for token 3 of a well-formed row. -/
def rowVal (row : Row) : Word := (row[3]?.getD none).getD 0

/-- Bit pattern of `numpy.array(n, dtype=numpy.int32)` for a natural `n`. -/
def word32 (n : Nat) : Word := n % 2 ^ 32

/-- Frame-writing loop of `tif2bnr` (lines 151-156): for `k` in
`range(nImages)`, re-read page `k` of the input stack and append its samples
row-major; `imread(input_file, key=k)` fails when the stack has no page `k`,
aborting the run after the pages already written. -/
def writeFramesGo (stack : List Page) : Nat → Nat → List Word × Option EncError
  | _, 0 => ([], none)
  | k, m + 1 =>
    match stack[k]? with
    | none => ([], some .decode)
    | some p =>
      let r := writeFramesGo stack (k + 1) m
      (p.flatten ++ r.1, r.2)

/-- Words written by the frame loop starting at page 0, for `n` frames. -/
def writeFrames (stack : List Page) (n : Nat) : List Word × Option EncError :=
  writeFramesGo stack 0 n

/-- The Sequence Encoder `tif2bnr` (lines 105-159): parse the timestamp
table, read page 0 of the stack for `w`/`h`, open the destination (text-mode
`'w'`, truncating), write the 7 header scalars `nImages, w, h, pz, wv, n_1,
n_2`, write the `nImages` timestamps, compute `x = 100 / nImages` (a
`ZeroDivisionError` when the table is empty), then stream the `nImages`
pages.  `stack` is the page list of the input tiff file, `wv n1 n2 pz` the
f32 patterns of the four metadata scalars. -/
def tif2bnr (tbl : List Row) (stack : List Page) (wv n1 n2 pz : Word) : EncResult :=
  match parseTimestamps tbl with
  | .error e => ⟨false, [], some e⟩
  | .ok ts =>
    match stack with
    | [] => ⟨false, [], some .decode⟩
    | p0 :: _ =>
      match p0 with
      | [] => ⟨false, [], some .decode⟩
      | r0 :: _ =>
        let n := ts.length
        let header := [word32 n, word32 r0.length, word32 p0.length, pz, wv, n1, n2]
        if n = 0 then ⟨true, header, some .zeroDiv⟩
        else
          let fr := writeFrames stack n
          ⟨true, header ++ ts ++ fr.1, fr.2⟩

/-- Byte stream of one 4-byte scalar as `numpy.ndarray.tofile` emits it
(little-endian, exactly 4 bytes). -/
def wordBytes (x : Word) : List Nat :=
  [x % 2 ^ 32 % 2 ^ 8, x % 2 ^ 32 / 2 ^ 8 % 2 ^ 8,
   x % 2 ^ 32 / 2 ^ 16 % 2 ^ 8, x % 2 ^ 32 / 2 ^ 24 % 2 ^ 8]

/-- Byte stream of a word list: scalars are written back to back with no
framing, length prefix or padding. -/
def fileBytes (ws : List Word) : List Nat := (ws.map wordBytes).flatten

/-- A row of the timestamp table on which the parsing loop raises:
`IndexError` (fewer than 4 tokens) or `ValueError` (token 3 non-numeric). -/
def MalformedRow (row : Row) : Prop := row[3]? = none ∨ row[3]? = some none

instance : DecidablePred MalformedRow := fun row => by
  unfold MalformedRow; infer_instance

/-- All pages of a stack are `H` rows of `W` samples (the `FrameSequence`
shape invariant of the specification's data model). -/
def UniformStack (W H : Nat) (stack : List Page) : Prop :=
  ∀ p ∈ stack, p.length = H ∧ ∀ row ∈ p, row.length = W

instance (W H : Nat) (stack : List Page) : Decidable (UniformStack W H stack) := by
  unfold UniformStack; infer_instance

/-- Signed value of a word read with `numpy.fromfile(fileID, dtype="i4")`. -/
def toI32 (x : Word) : Int :=
  if x % 2 ^ 32 < 2 ^ 31 then (x % 2 ^ 32 : Nat) else (x % 2 ^ 32 : Nat) - 2 ^ 32

/-- Row reconstruction of the BNR check (lines 443-445): `h` rows of `w`
consecutive samples. -/
def chunkRows (w : Nat) : Nat → List Word → List (List Word)
  | 0, _ => []
  | h + 1, s => s.take w :: chunkRows w h (s.drop w)

/-- Header, timestamps and first frame of a BNR file as read back by the
check in `run_process` (lines 426-447): seven 4-byte reads (`nImages`, `w`,
`h` as `i4`; the four metadata scalars as `f4`, bound to `_`), `nImages`
timestamp reads as `i4`, then `h` rows of `w` samples as `f4`. -/
structure BNRView where
  nImages : Int
  width : Int
  height : Int
  pxSize : Word
  wvl : Word
  rIdx1 : Word
  rIdx2 : Word
  timestamps : List Int
  firstFrame : List (List Word)
deriving DecidableEq

/-- Reader of the BNR check (lines 426-447).  `none` models the exceptions
of the original: `x[0]` raising `IndexError` when `fromfile` hits the end of
file, `numpy.zeros((h, w))` raising on a negative dimension, and the row
assignment raising when a row read comes back short. -/
def readBNR (s : List Word) : Option BNRView :=
  match s with
  | a :: b :: c :: d :: e :: f :: g :: rest =>
    let n := toI32 a
    let w := toI32 b
    let h := toI32 c
    if n.toNat ≤ rest.length then
      let rest2 := rest.drop n.toNat
      if w < 0 ∨ h < 0 then none
      else if h.toNat * w.toNat ≤ rest2.length then
        some ⟨n, w, h, d, e, f, g, (rest.take n.toNat).map toI32,
          chunkRows w.toNat h.toNat rest2⟩
      else none
    else none
  | _ => none

/-- Exact integer representation of a finite f32 bit pattern: the value of
the float times `2 ^ 149` (so the least subnormal maps to `±1`).  Patterns
with exponent 255 (infinities, NaN) are mapped to huge finite integers and
are excluded by hypothesis wherever the range check is concerned. -/
def f32scaled (x : Word) : Int :=
  let b := x % 2 ^ 32
  let e := b / 2 ^ 23 % 2 ^ 8
  let m := b % 2 ^ 23
  let mag : Nat := if e = 0 then m else (2 ^ 23 + m) * 2 ^ (e - 1)
  if b / 2 ^ 31 = 1 then -(mag : Int) else (mag : Int)

/-- Word whose f32 exponent field is not 255: a finite float (not ±inf/NaN). -/
def FiniteF32 (x : Word) : Prop := x % 2 ^ 32 / 2 ^ 23 % 2 ^ 8 ≠ 255

instance : DecidablePred FiniteF32 := fun x => by
  unfold FiniteF32; infer_instance

/-- Scaled image of the exclusive range bound `-100` (`-100 * 2 ^ 149`). -/
def sampleLo : Int := -(100 * 2 ^ 149 : Nat)

/-- Scaled image of the exclusive range bound `100` (`100 * 2 ^ 149`). -/
def sampleHi : Int := (100 * 2 ^ 149 : Nat)

/-- Range test of the BNR check (lines 449-452): reconstruct the first
frame, compute `phasemin`/`phasemax`, flag when `phasemin < -100 or
phasemax > 100`.  `none` models the exceptions of the reader and numpy's
`min`/`max` raising on an empty frame. -/
def bnrVerdict (s : List Word) : Option Bool :=
  match readBNR s with
  | none => none
  | some v =>
    let vals := (v.firstFrame.flatten).map f32scaled
    match vals.min?, vals.max? with
    | some mn, some mx => some (decide (mn < sampleLo) || decide (mx > sampleHi))
    | _, _ => none

/-- BNR-file checking loop of `run_process` (lines 423-458): each flagged
file has its name recorded and the loop moves on to the next file; a flagged
file never aborts the loop. -/
def checkBNRFiles : List (String × List Word) → Option (List String)
  | [] => some []
  | (p, s) :: rest =>
    match bnrVerdict s with
    | none => none
    | some b =>
      match checkBNRFiles rest with
      | none => none
      | some l => some (if b then p :: l else l)

/-- Lexicographic order on char lists by code point, as Python compares
`str` values (structurally recursive so that it evaluates). -/
def lexLe : List Char → List Char → Bool
  | [], _ => true
  | _ :: _, [] => false
  | a :: s, b :: t => if a = b then lexLe s t else decide (a < b)

/-- Python's `<=` on strings: lexicographic by code point. -/
def pyLe (s t : String) : Prop := lexLe s.data t.data = true

instance : DecidableRel pyLe := fun s t =>
  inferInstanceAs (Decidable (lexLe s.data t.data = true))

instance : IsTotal String pyLe where
  total s t := by
    have key : ∀ a b : List Char, lexLe a b = true ∨ lexLe b a = true := by
      intro a
      induction a with
      | nil => intro b; left; rfl
      | cons x xs ih =>
        intro b
        cases b with
        | nil => right; rfl
        | cons y ys =>
          by_cases hxy : x = y
          · subst hxy
            rcases ih ys with h | h
            · left; simpa [lexLe] using h
            · right; simpa [lexLe] using h
          · rcases lt_or_gt_of_ne hxy with h | h
            · left; simp [lexLe, hxy, h]
            · right; simp [lexLe, Ne.symm hxy, h]
    exact key s.data t.data

instance : IsTrans String pyLe where
  trans s t u h1 h2 := by
    have key : ∀ a b c : List Char, lexLe a b = true → lexLe b c = true →
        lexLe a c = true := by
      intro a
      induction a with
      | nil => intro b c _ _; rfl
      | cons x xs ih =>
        intro b c h1 h2
        cases b with
        | nil => simp [lexLe] at h1
        | cons y ys =>
          cases c with
          | nil => simp [lexLe] at h2
          | cons z zs =>
            by_cases hxy : x = y <;> by_cases hyz : y = z
            · subst hxy; subst hyz
              simp only [lexLe, if_pos rfl] at h1 h2 ⊢
              exact ih ys zs h1 h2
            · subst hxy
              simp [lexLe, hyz] at h2 ⊢
              exact h2
            · subst hyz
              simp [lexLe, hxy] at h1 ⊢
              exact h1
            · simp [lexLe, hxy, hyz] at h1 h2
              have hxz : x < z := lt_trans h1 h2
              have hne : x ≠ z := ne_of_lt hxz
              simp [lexLe, hne, hxz]
    exact key s.data t.data u.data h1 h2

instance : IsAntisymm String pyLe where
  antisymm s t h1 h2 := by
    have key : ∀ a b : List Char, lexLe a b = true → lexLe b a = true → a = b := by
      intro a
      induction a with
      | nil =>
        intro b _ h2
        cases b with
        | nil => rfl
        | cons y ys => simp [lexLe] at h2
      | cons x xs ih =>
        intro b h1 h2
        cases b with
        | nil => simp [lexLe] at h1
        | cons y ys =>
          by_cases hxy : x = y
          · subst hxy
            simp only [lexLe, if_pos rfl] at h1 h2
            rw [ih ys h1 h2]
          · simp [lexLe, hxy, Ne.symm hxy] at h1 h2
            exact absurd h2 (not_lt_of_gt h1)
    exact String.ext (key s.data t.data h1 h2)

/-- Filename filter of `bin2tif` (line 79): keep the files ending in
`.bin`. -/
def binFilter (listing : List String) : List String :=
  listing.filter fun f => List.isSuffixOf ".bin".data f.data

/-- The sorted bin-file list of `bin2tif` (line 79):
`sorted([f for f in os.listdir(binfolder) if f.endswith('.bin')])`.
`listing` is the directory listing in whatever order the OS returns it. -/
def sortedBinFiles (listing : List String) : List String :=
  List.insertionSort pyLe (binFilter listing)

/-- Pages emitted by `bin2tif` (lines 84-96): each sorted bin file is
decoded (`binkoala.read_mat_bin`, the external Frame Source, abstracted as
`decode`) and appended to the destination stack in sorted order. -/
def bin2tifFrames (decode : String → Page) (listing : List String) : List Page :=
  (sortedBinFiles listing).map decode

/-- File-system effect of `bin2tif` on the destination stack file:
`imwrite(..., append=True)` appends each page to whatever is already at the
destination (`existing`, `none` when absent); an empty bin-file list raises
`ZeroDivisionError` at `x = 100 / total_files` (line 82) before anything is
written.  Returns the destination content and whether the run aborted. -/
def bin2tifFS (decode : String → Page) (existing : Option (List Page))
    (listing : List String) : Option (List Page) × Bool :=
  if binFilter listing = [] then (existing, true)
  else (some (existing.getD [] ++ bin2tifFrames decode listing), false)

/-- Effect of `if os.path.isfile(tif_file): os.remove(tif_file)` on the
destination content. -/
def removeIfPresent (existing : Option (List Page)) : Option (List Page) :=
  match existing with
  | some _ => none
  | none => none

/-- Step 1 of the automatic pipeline (`run_process` lines 353-358): remove
the destination tif if it exists, then run `bin2tif` into it. -/
def composeStepFresh (decode : String → Page) (existing : Option (List Page))
    (listing : List String) : Option (List Page) × Bool :=
  bin2tifFS decode (removeIfPresent existing) listing

/-- GUI field values used by `run_process` to assemble output paths
(Python `str` values, modelled as `List Char`). -/
structure GuiVars where
  mainfolder : List Char
  date : List Char
  micro : List Char
  exp : List Char
  drug : List Char
  conc : List Char
  unitStr : List Char
  bloq : List Char
  bconc : List Char
  bunit : List Char
  lin1 : List Char
  lin2 : List Char
  lin3 : List Char
  lin4 : List Char
deriving DecidableEq

/-- Python `str(i)` for a natural number. -/
def natStr (i : Nat) : List Char := (Nat.repr i).data

/-- Python `s.rjust(3, '0')`. -/
def rjust3 (s : List Char) : List Char := List.replicate (3 - s.length) '0' ++ s

/-- Value of `vars[f'lin{j}']` for `j` in 1..4. -/
def linOf (g : GuiVars) (j : Nat) : List Char :=
  if j = 1 then g.lin1 else if j = 2 then g.lin2 else if j = 3 then g.lin3 else g.lin4

/-- Path part `output_file_name_A` of `run_process` (lines 308, 396):
`os.path.join(mainfolder, f"{thisdate}_{micro}_Exp{exp}")`. -/
def nameA (g : GuiVars) : List Char :=
  g.mainfolder ++ "/".data ++ g.date ++ "_".data ++ g.micro ++ "_Exp".data ++ g.exp

/-- Path part `output_file_name_B` of `run_process` (lines 309-312,
397-400). -/
def nameB (g : GuiVars) : List Char :=
  if g.bloq = [] then "_".data ++ g.drug ++ "_".data ++ g.conc ++ g.unitStr ++ ".bnr".data
  else "_".data ++ g.drug ++ " ".data ++ g.conc ++ g.unitStr ++ "_".data ++ g.bloq ++
    "_".data ++ g.bconc ++ g.bunit ++ ".bnr".data

/-- BNR output path whose pre-existence the confirmation block of
`run_process` tests for well index `i` (line 313): note `str(i)`. -/
def checkedBnrPath (g : GuiVars) (i : Nat) : List Char :=
  nameA g ++ "_".data ++ "w".data ++ rjust3 (natStr i) ++ "_".data ++
    linOf g (i + 1) ++ nameB g

/-- BNR output path that `run_process` later removes (line 406-407, without
further confirmation) and creates for well index `i` (line 401): note
`str(i + 1)`. -/
def createdBnrPath (g : GuiVars) (i : Nat) : List Char :=
  nameA g ++ "_".data ++ "w".data ++ rjust3 (natStr (i + 1)) ++ "_".data ++
    linOf g (i + 1) ++ nameB g

/-- GUI state with every text field left empty, a concrete run
configuration for evaluating the path assembly. -/
def g0 : GuiVars := ⟨[], [], [], [], [], [], [], [], [], [], [], [], [], []⟩

/-- Python `sep in s` for a non-empty separator: some position of `s`
starts with `sep`. -/
def containsSubL (sep : List Char) : List Char → Bool
  | [] => List.isPrefixOf sep []
  | c :: rest => List.isPrefixOf sep (c :: rest) || containsSubL sep rest

/-- Suffix of `s` after the first occurrence of `sep`, `none` when `sep`
does not occur. -/
def afterFirstL (sep : List Char) : List Char → Option (List Char)
  | [] => if List.isPrefixOf sep ([] : List Char) then some [] else none
  | c :: rest =>
    if List.isPrefixOf sep (c :: rest) then some (List.drop sep.length (c :: rest))
    else afterFirstL sep rest

/-- Longest prefix of `s` before the first occurrence of `sep` (all of `s`
when `sep` does not occur). -/
def upToFirstL (sep : List Char) : List Char → List Char
  | [] => []
  | c :: rest =>
    if List.isPrefixOf sep (c :: rest) then [] else c :: upToFirstL sep rest

/-- Python `s.split(sep)[1]`: the segment between the end of the first
occurrence of `sep` and the next occurrence (to the end when there is no
second occurrence); `none` when `sep` does not occur (`IndexError`). -/
def pySplitOne (sep s : List Char) : Option (List Char) :=
  (afterFirstL sep s).map (upToFirstL sep)

/-- Python `s.strip()`: drop whitespace from both ends. -/
def trimL (s : List Char) : List Char :=
  ((s.dropWhile Char.isWhitespace).reverse.dropWhile Char.isWhitespace).reverse

/-- Python `s.split(",")`. -/
def splitCommaL : List Char → List (List Char)
  | [] => [[]]
  | c :: rest =>
    match splitCommaL rest with
    | [] => [[c]]
    | h :: t => if c = ',' then [] :: h :: t else (c :: h) :: t

/-- Python `s.replace("[", "").replace("]", "")`. -/
def stripSquares (s : List Char) : List Char :=
  (s.filter fun c => c ≠ '[').filter fun c => c ≠ ']'

/-- Marker substring tested by the log loop (line 375). -/
def markerChars : List Char := "Transformation Matrix: AffineTransform".data

/-- Separator of the `lin.split("AffineTransform")` call (line 376). -/
def atChars : List Char := "AffineTransform".data

/-- Token list a marker line is reduced to (lines 374-380): strip the line,
take `split("AffineTransform")[1]`, drop `[` and `]`, split on `,`, strip
each token.  `none` when `split(...)[1]` would raise `IndexError`. -/
def codeTokens (line : List Char) : Option (List (List Char)) :=
  match pySplitOne atChars (trimL line) with
  | none => none
  | some s1 => some ((splitCommaL (stripSquares s1)).map trimL)

/-- One iteration of the log loop (lines 373-381): a non-marker line
contributes nothing (`some none`), a marker line contributes
`aaa[2] + "," + aaa[5] + "\n"` (`some (some sh)`), and a marker line with
fewer than 6 tokens raises `IndexError` (`none`), aborting the run. -/
def lineShift (line : List Char) : Option (Option (List Char)) :=
  if containsSubL markerChars line then
    match codeTokens line with
    | none => none
    | some aaa =>
      match aaa[2]?, aaa[5]? with
      | some a2, some a5 => some (some (a2 ++ [','] ++ a5 ++ ['\n']))
      | _, _ => none
  else some none

/-- Accumulation of `shiftstr` over the input lines, in file order;
`none` when some line raises. -/
def buildShifts : List (List Char) → Option (List Char)
  | [] => some []
  | line :: rest =>
    match lineShift line with
    | none => none
    | some none => buildShifts rest
    | some (some sh) =>
      match buildShifts rest with
      | none => none
      | some acc => some (sh ++ acc)

/-- The fixed SIFT parameter documentation block (line 32 of the source). -/
def SIFT_paras_string : String := "Linear Stack Alignment with SIFT parameter:\n\ninitial_gaussian_blur = 1.60\nsteps_per_scale_octave = 3\nminimum_image_size = 64\nmaximum_image_size = 1024\nfeature_descriptor_size = 4\nfeature_descriptor_orientation_bins = 8\nclosest/next_closest_ratio = 0.92\nmaximal_alignment_error = 25\ninlier_ratio = 0.05\nexpected_transformation = Translation\ninterpolate\nshow_transformation_matrix\n\nTranslation per frame (x,y):\n\n"

/-- The Registration Log Translator (lines 371-384): read the log lines,
accumulate one `tx,ty` line per marker line, then overwrite the file with
the documentation block followed by the accumulated lines.  `none` when the
loop raises: the file is then never rewritten. -/
def translateLog (lines : List (List Char)) : Option (List Char) :=
  match buildShifts lines with
  | none => none
  | some sh => some (SIFT_paras_string.data ++ sh)

/-- Per-line translation rule exactly as the specification words it
(spec §4.2, the source of claim C4): take the substring after the marker
`"Transformation Matrix: AffineTransform"`, strip all `[` and `]`, split on
`,`, trim each token, and emit tokens 2 and 5 as `"tx,ty"`.  Stated from
the spec, for comparison with `lineShift`/`translateLog`. -/
def specShiftLine (line : List Char) : Option (List Char) :=
  if containsSubL markerChars line then
    let aaa := (splitCommaL (stripSquares ((afterFirstL markerChars line).getD []))).map trimL
    some ((aaa.getD 2 []) ++ [','] ++ (aaa.getD 5 []) ++ ['\n'])
  else none

/-- Whole-file translation as the specification words it: the documentation
block followed, in original order, by one `tx,ty` line per marker line.
Stated from the spec, for comparison with `translateLog`. -/
def specTranslateLog (lines : List (List Char)) : List Char :=
  SIFT_paras_string.data ++ (lines.filterMap specShiftLine).flatten

/-- Total variant of the code's per-line rule (used to state what
`translateLog` produces when no line raises). -/
def shiftOf (line : List Char) : Option (List Char) :=
  if containsSubL markerChars line then
    some ((((codeTokens line).getD []).getD 2 []) ++ [','] ++
      (((codeTokens line).getD []).getD 5 []) ++ ['\n'])
  else none

/-- A log line on which the loop completes: if it is a marker line, its
`split("AffineTransform")[1]` segment exists and yields at least 6 comma
tokens. -/
def LineOk (line : List Char) : Prop :=
  containsSubL markerChars line = true →
    (codeTokens line).isSome = true ∧ 6 ≤ ((codeTokens line).getD []).length

instance : DecidablePred LineOk := fun line => by
  unfold LineOk; infer_instance

/-- Registration log line on which the code's rule and the specification's
rule disagree: a second `AffineTransform` occurs before the marker, so
`split("AffineTransform")[1]` is the text between the two occurrences (and
has too few tokens, raising `IndexError`), while the substring after the
marker parses fine. -/
def badLogLine : List Char :=
  "AffineTransform Transformation Matrix: AffineTransform[[1,0,7],[0,1,8]]".data

/-- Concrete 1-frame 2x2 BNR word stream: header `n=1, w=2, h=2`, four zero
metadata scalars, one timestamp, then samples `150.0, 0.0, 0.0, 100.0`
(f32 patterns `0x43160000, 0, 0, 0x42C80000`). -/
def bnrSample : List Word :=
  [1, 2, 2, 0, 0, 0, 0, 0, 1125515264, 0, 0, 1120403456]

/-- The view `readBNR` reconstructs from `bnrSample`. -/
def bnrView0 : BNRView :=
  ⟨1, 2, 2, 0, 0, 0, 0, [0], [[1125515264, 0], [0, 1120403456]]⟩

/-!  Helper lemmas about the embedded operations. -/

theorem parseTimestamps_ok (tbl : List Row) (h : ∀ row ∈ tbl, ¬ MalformedRow row) :
    parseTimestamps tbl = .ok (tbl.map rowVal) := by
  induction tbl with
  | nil => rfl
  | cons row rest ih =>
    have hr := h row (by simp)
    unfold MalformedRow at hr
    push_neg at hr
    match e : row[3]? with
    | none => exact absurd e hr.1
    | some none => exact absurd e hr.2
    | some (some v) =>
      simp [parseTimestamps, e, ih fun r hm => h r (by simp [hm]), rowVal]

theorem parseTimestamps_error (tbl : List Row) (h : ∃ row ∈ tbl, MalformedRow row) :
    parseTimestamps tbl = .error .parse := by
  induction tbl with
  | nil => simp at h
  | cons row rest ih =>
    rcases h with ⟨r, hr, hm⟩
    rcases List.mem_cons.mp hr with rfl | hmem
    · unfold MalformedRow at hm
      rcases hm with e | e <;> simp [parseTimestamps, e]
    · match e : row[3]? with
      | none => simp [parseTimestamps, e]
      | some none => simp [parseTimestamps, e]
      | some (some v) => simp [parseTimestamps, e, ih ⟨r, hmem, hm⟩]

theorem writeFramesGo_ok (stack : List Page) (m k : Nat) (h : k + m ≤ stack.length) :
    writeFramesGo stack k m = ((((stack.drop k).take m).map List.flatten).flatten, none) := by
  induction m generalizing k with
  | zero => simp [writeFramesGo]
  | succ m ih =>
    have hk : k < stack.length := by omega
    have e : stack[k]? = some stack[k] := List.getElem?_eq_getElem hk
    have hdrop : stack.drop k = stack[k] :: stack.drop (k + 1) :=
      List.drop_eq_getElem_cons hk
    rw [hdrop]
    simp only [writeFramesGo, e, List.take_succ_cons, List.map_cons, List.flatten_cons]
    rw [ih (k + 1) (by omega)]

theorem tif2bnr_ok (tbl : List Row) (r0 : List Word) (rs : List (List Word))
    (stack2 : List Page) (wv n1 n2 pz : Word)
    (hwf : ∀ row ∈ tbl, ¬ MalformedRow row) (hne : tbl ≠ [])
    (hle : tbl.length ≤ ((r0 :: rs) :: stack2).length) :
    tif2bnr tbl ((r0 :: rs) :: stack2) wv n1 n2 pz =
      ⟨true,
        [word32 tbl.length, word32 r0.length, word32 (rs.length + 1), pz, wv, n1, n2] ++
          tbl.map rowVal ++
          ((((r0 :: rs) :: stack2).take tbl.length).map List.flatten).flatten,
        none⟩ := by
  have hp := parseTimestamps_ok tbl hwf
  have hn0 : tbl.length ≠ 0 := fun h => hne (List.length_eq_zero.mp h)
  have hw := writeFramesGo_ok ((r0 :: rs) :: stack2) tbl.length 0 (by omega)
  simp only [List.drop_zero] at hw
  unfold tif2bnr
  rw [hp]
  simp only [List.length_map, writeFrames, hw, if_neg hn0, List.length_cons]

theorem flatten_length_uniform (l : List Page) (W H : Nat)
    (h : ∀ p ∈ l, p.length = H ∧ ∀ row ∈ p, row.length = W) :
    ((l.map List.flatten).flatten).length = l.length * (H * W) := by
  induction l with
  | nil => simp
  | cons p t ih =>
    have hp := h p (by simp)
    have hflat : p.flatten.length = H * W := by
      rw [List.length_flatten]
      have e : p.map List.length = List.replicate p.length W :=
        (List.map_eq_replicate_iff).mpr hp.2
      rw [e, hp.1, List.sum_replicate, smul_eq_mul]
    have ht := ih fun q hq => h q (by simp [hq])
    simp only [List.map_cons, List.flatten_cons, List.length_append, hflat, ht,
      List.length_cons]
    ring

theorem length_fileBytes (ws : List Word) : (fileBytes ws).length = 4 * ws.length := by
  induction ws with
  | nil => rfl
  | cons a t ih =>
    simp only [fileBytes, List.map_cons, List.flatten_cons, List.length_append] at ih ⊢
    simp [wordBytes, ih]
    ring

theorem toI32_word32 (n : Nat) (h : n < 2 ^ 31) : toI32 (word32 n) = n := by
  have h32 : n % 2 ^ 32 = n := Nat.mod_eq_of_lt (by omega)
  unfold toI32 word32
  rw [h32, h32, if_pos h]

theorem readBNR_of_layout (n W H : Nat) (pz wv n1 n2 : Word) (ts F : List Word)
    (hts : ts.length = n) (hn : n < 2 ^ 31) (hW : W < 2 ^ 31) (hH : H < 2 ^ 31)
    (hF : H * W ≤ F.length) :
    readBNR ([word32 n, word32 W, word32 H, pz, wv, n1, n2] ++ ts ++ F) =
      some ⟨n, W, H, pz, wv, n1, n2, ts.map toI32, chunkRows W H F⟩ := by
  have e1 := toI32_word32 n hn
  have e2 := toI32_word32 W hW
  have e3 := toI32_word32 H hH
  have htoN : ((n : Int)).toNat = n := Int.toNat_natCast n
  have hWN : ((W : Int)).toNat = W := Int.toNat_natCast W
  have hHN : ((H : Int)).toNat = H := Int.toNat_natCast H
  have hcons : [word32 n, word32 W, word32 H, pz, wv, n1, n2] ++ ts ++ F =
      word32 n :: word32 W :: word32 H :: pz :: wv :: n1 :: n2 :: (ts ++ F) := by
    simp
  rw [hcons]
  simp only [readBNR, e1, e2, e3, htoN, hWN, hHN]
  rw [List.take_left' hts, List.drop_left' hts]
  have hlen : n ≤ (ts ++ F).length := by
    rw [List.length_append, hts]
    omega
  have hneg : ¬((W : Int) < 0 ∨ (H : Int) < 0) := by
    push_neg
    exact ⟨Int.natCast_nonneg W, Int.natCast_nonneg H⟩
  rw [if_pos hlen, if_neg hneg, if_pos hF]

/-!  Claim theorems. -/

/-- C7: the Sequence Encoder reads every timestamp-table row, takes token
index 3 of the whitespace-split line as the f32 timestamp, and uses the
total row count as `frame_count` (the first header word); a malformed row
(fewer than 4 columns, or a non-numeric token 3) makes the whole encode
abort with a parse error before the destination is even opened — no partial
recovery. -/
theorem timestamp_parse_spec (tbl : List Row) (stack : List Page) (wv n1 n2 pz : Word) :
    ((∃ row ∈ tbl, MalformedRow row) →
      tif2bnr tbl stack wv n1 n2 pz = ⟨false, [], some .parse⟩) ∧
    ((∀ row ∈ tbl, ¬ MalformedRow row) →
      parseTimestamps tbl = .ok (tbl.map rowVal) ∧
      (tbl.map rowVal).length = tbl.length ∧
      ∀ r0 rs stack2, stack = (r0 :: rs) :: stack2 →
        (tif2bnr tbl stack wv n1 n2 pz).written.head? = some (word32 tbl.length)) := by
  constructor
  · intro hbad
    have hp := parseTimestamps_error tbl hbad
    simp [tif2bnr, hp]
  · intro hwf
    have hp := parseTimestamps_ok tbl hwf
    refine ⟨hp, by simp, ?_⟩
    rintro r0 rs stack2 rfl
    unfold tif2bnr
    rw [hp]
    simp only [List.length_map]
    split <;> rfl

/-- C7 witness: a 1-token row aborts the encode with a parse error and
nothing written; a well-formed 4-column table parses to one timestamp per
row and its row count becomes the first header word. -/
theorem timestamp_parse_spec_witness :
    tif2bnr [[some 9]] [[[5]]] 0 0 0 0 = ⟨false, [], some .parse⟩ ∧
    parseTimestamps [[some 1, some 2, some 3, some 4]] =
      .ok ([[some 1, some 2, some 3, some 4]].map rowVal) ∧
    (tif2bnr [[some 1, some 2, some 3, some 4]] [[[5]]] 0 0 0 0).written.head? =
      some (word32 1) := by
  refine ⟨(timestamp_parse_spec [[some 9]] [[[5]]] 0 0 0 0).1 (by decide), ?_, ?_⟩
  · exact ((timestamp_parse_spec [[some 1, some 2, some 3, some 4]] [[[5]]] 0 0 0 0).2
      (by decide)).1
  · exact ((timestamp_parse_spec [[some 1, some 2, some 3, some 4]] [[[5]]] 0 0 0 0).2
      (by decide)).2.2 [5] [] [] rfl

/-- C10: on an empty timestamp table (and a stack whose first page exists),
the encode is not rejected up front: the destination is truncated/created,
the 7 header words go out with `frame_count = 0` and the first page's
`w`/`h`, and the run then dies on the unguarded `x = 100 / nImages`,
leaving a header-only container behind. -/
theorem empty_table_partial_write (r0 : List Word) (rs : List (List Word))
    (stack2 : List Page) (wv n1 n2 pz : Word) :
    tif2bnr [] ((r0 :: rs) :: stack2) wv n1 n2 pz =
      ⟨true, [word32 0, word32 r0.length, word32 (rs.length + 1), pz, wv, n1, n2],
        some .zeroDiv⟩ :=
  rfl

/-- C9: when the input stack has strictly more pages than the timestamp
table has rows, the encode still succeeds (no cross-check, no error) and
the container ends after the first `frame_count` pages — the excess pages
are silently dropped. -/
theorem silent_truncation (tbl : List Row) (stack : List Page) (wv n1 n2 pz : Word)
    (W H : Nat)
    (hwf : ∀ row ∈ tbl, ¬ MalformedRow row)
    (hne : tbl ≠ [])
    (hlt : tbl.length < stack.length)
    (hu : UniformStack W H stack) (hH : 0 < H) :
    (tif2bnr tbl stack wv n1 n2 pz).err = none ∧
    (tif2bnr tbl stack wv n1 n2 pz).written =
      [word32 tbl.length, word32 W, word32 H, pz, wv, n1, n2] ++ tbl.map rowVal ++
        ((stack.take tbl.length).map List.flatten).flatten := by
  obtain ⟨p0, stack2, rfl⟩ : ∃ p0 s2, stack = p0 :: s2 := by
    cases stack with
    | nil => simp at hlt
    | cons a b => exact ⟨a, b, rfl⟩
  have hp0 := hu p0 (by simp)
  obtain ⟨r0, rs, rfl⟩ : ∃ r0 rs, p0 = r0 :: rs := by
    cases p0 with
    | nil =>
      exfalso
      have h0 := hp0.1
      simp at h0
      omega
    | cons a b => exact ⟨a, b, rfl⟩
  have hr0 : r0.length = W := hp0.2 r0 (by simp)
  have hhh : rs.length + 1 = H := by simpa using hp0.1
  have he := tif2bnr_ok tbl r0 rs stack2 wv n1 n2 pz hwf hne (le_of_lt hlt)
  rw [he, hr0, hhh]
  exact ⟨rfl, rfl⟩

/-- C9 witness: a 1-row table with a 2-page stack of 1x2 frames encodes
without error and writes only page 0. -/
theorem silent_truncation_witness :
    (tif2bnr [[some 0, some 0, some 0, some 3]] [[[1, 2]], [[3, 4]]] 0 0 0 0).err = none ∧
    (tif2bnr [[some 0, some 0, some 0, some 3]] [[[1, 2]], [[3, 4]]] 0 0 0 0).written =
      [word32 1, word32 2, word32 1, 0, 0, 0, 0] ++
        [[some 0, some 0, some 0, some 3]].map rowVal ++
        (([[[1, 2]], [[3, 4]]].take 1).map List.flatten).flatten := by
  have h := silent_truncation [[some 0, some 0, some 0, some 3]] [[[1, 2]], [[3, 4]]]
    0 0 0 0 2 1 (by decide) (by decide) (by decide) (by decide) (by decide)
  exact h

/-- C2: a successful encode writes exactly the 7 header scalars in the
fixed order `frame_count, width, height, pixel_size, wavelength,
refractive_index_1, refractive_index_2`, then the `frame_count` timestamps
in table order, then the `frame_count` frames row-major, frame-major; at
the byte level every scalar is exactly 4 bytes, back to back, so the file
is exactly `4 * (7 + N + N*H*W)` bytes — no framing, no padding. -/
theorem container_layout (tbl : List Row) (stack : List Page) (wv n1 n2 pz : Word)
    (W H : Nat)
    (hwf : ∀ row ∈ tbl, ¬ MalformedRow row) (hne : tbl ≠ [])
    (hle : tbl.length ≤ stack.length)
    (hu : UniformStack W H stack) (hH : 0 < H) :
    tif2bnr tbl stack wv n1 n2 pz =
      ⟨true,
        [word32 tbl.length, word32 W, word32 H, pz, wv, n1, n2] ++ tbl.map rowVal ++
          ((stack.take tbl.length).map List.flatten).flatten, none⟩ ∧
    (fileBytes (tif2bnr tbl stack wv n1 n2 pz).written).length =
      4 * (7 + tbl.length + tbl.length * (H * W)) ∧
    ∀ x : Word, (wordBytes x).length = 4 := by
  have hnz : 0 < tbl.length := List.length_pos.mpr hne
  obtain ⟨p0, stack2, rfl⟩ : ∃ p0 s2, stack = p0 :: s2 := by
    cases stack with
    | nil => exact absurd (by simpa using hle) hne
    | cons a b => exact ⟨a, b, rfl⟩
  have hp0 := hu p0 (by simp)
  obtain ⟨r0, rs, rfl⟩ : ∃ r0 rs, p0 = r0 :: rs := by
    cases p0 with
    | nil =>
      exfalso
      have h0 := hp0.1
      simp at h0
      omega
    | cons a b => exact ⟨a, b, rfl⟩
  have hr0 : r0.length = W := hp0.2 r0 (by simp)
  have hhh : rs.length + 1 = H := by simpa using hp0.1
  have he := tif2bnr_ok tbl r0 rs stack2 wv n1 n2 pz hwf hne hle
  rw [he, hr0, hhh]
  refine ⟨rfl, ?_, fun x => rfl⟩
  rw [length_fileBytes]
  have hflen : (((((r0 :: rs) :: stack2).take tbl.length).map List.flatten).flatten).length =
      (((r0 :: rs) :: stack2).take tbl.length).length * (H * W) :=
    flatten_length_uniform _ W H fun p hp => hu p (List.mem_of_mem_take hp)
  have htake : (((r0 :: rs) :: stack2).take tbl.length).length = tbl.length :=
    List.length_take_of_le hle
  simp only [List.length_append, List.length_map, hflen, htake, List.length_cons,
    List.length_nil]

/-- C2 witness: a 2-frame 1x2 sequence encodes to the exact word layout and
to `4 * (7 + 2 + 2*2) = 52` bytes. -/
theorem container_layout_witness :
    tif2bnr [[some 0, some 0, some 0, some 3], [some 0, some 0, some 0, some 4]]
        [[[1, 2]], [[3, 4]]] 10 11 12 13 =
      ⟨true,
        [word32 2, word32 2, word32 1, 13, 10, 11, 12] ++
          [[some 0, some 0, some 0, some 3], [some 0, some 0, some 0, some 4]].map rowVal ++
          (([[[1, 2]], [[3, 4]]].take 2).map List.flatten).flatten, none⟩ ∧
    (fileBytes (tif2bnr [[some 0, some 0, some 0, some 3], [some 0, some 0, some 0, some 4]]
        [[[1, 2]], [[3, 4]]] 10 11 12 13).written).length = 4 * (7 + 2 + 2 * (1 * 2)) := by
  have h := container_layout
    [[some 0, some 0, some 0, some 3], [some 0, some 0, some 0, some 4]]
    [[[1, 2]], [[3, 4]]] 10 11 12 13 2 1
    (by decide) (by decide) (by decide) (by decide) (by decide)
  exact ⟨h.1, h.2.1⟩

/-- C1: encoding an `N`-frame `WxH` sequence with timestamps of length `N`
and the four metadata scalars, then reading the header back with the BNR
check's read sequence, returns `frame_count = N`, `width = W`,
`height = H`, and bit-for-bit the same `pixel_size`, `wavelength`,
`refractive_index_1`, `refractive_index_2` words. -/
theorem header_roundtrip (tbl : List Row) (stack : List Page) (wv n1 n2 pz : Word)
    (W H : Nat)
    (hwf : ∀ row ∈ tbl, ¬ MalformedRow row) (hne : tbl ≠ [])
    (hle : tbl.length ≤ stack.length)
    (hu : UniformStack W H stack) (hH : 0 < H)
    (hn31 : tbl.length < 2 ^ 31) (hW31 : W < 2 ^ 31) (hH31 : H < 2 ^ 31) :
    ∃ v : BNRView,
      readBNR (tif2bnr tbl stack wv n1 n2 pz).written = some v ∧
      (tif2bnr tbl stack wv n1 n2 pz).err = none ∧
      v.nImages = tbl.length ∧ v.width = W ∧ v.height = H ∧
      v.pxSize = pz ∧ v.wvl = wv ∧ v.rIdx1 = n1 ∧ v.rIdx2 = n2 := by
  have hnz : 0 < tbl.length := List.length_pos.mpr hne
  obtain ⟨p0, stack2, rfl⟩ : ∃ p0 s2, stack = p0 :: s2 := by
    cases stack with
    | nil => exact absurd (by simpa using hle) hne
    | cons a b => exact ⟨a, b, rfl⟩
  have hp0 := hu p0 (by simp)
  obtain ⟨r0, rs, rfl⟩ : ∃ r0 rs, p0 = r0 :: rs := by
    cases p0 with
    | nil =>
      exfalso
      have h0 := hp0.1
      simp at h0
      omega
    | cons a b => exact ⟨a, b, rfl⟩
  have hr0 : r0.length = W := hp0.2 r0 (by simp)
  have hhh : rs.length + 1 = H := by simpa using hp0.1
  have he := tif2bnr_ok tbl r0 rs stack2 wv n1 n2 pz hwf hne hle
  rw [hr0, hhh] at he
  have hflen : (((((r0 :: rs) :: stack2).take tbl.length).map List.flatten).flatten).length =
      (((r0 :: rs) :: stack2).take tbl.length).length * (H * W) :=
    flatten_length_uniform _ W H fun p hp => hu p (List.mem_of_mem_take hp)
  have htake : (((r0 :: rs) :: stack2).take tbl.length).length = tbl.length :=
    List.length_take_of_le hle
  have hF : H * W ≤
      (((((r0 :: rs) :: stack2).take tbl.length).map List.flatten).flatten).length := by
    rw [hflen, htake]
    exact Nat.le_mul_of_pos_left _ hnz
  have hr := readBNR_of_layout tbl.length W H pz wv n1 n2 (tbl.map rowVal)
    ((((r0 :: rs) :: stack2).take tbl.length).map List.flatten).flatten
    (by simp) hn31 hW31 hH31 hF
  refine ⟨⟨tbl.length, W, H, pz, wv, n1, n2, (tbl.map rowVal).map toI32,
    chunkRows W H ((((r0 :: rs) :: stack2).take tbl.length).map List.flatten).flatten⟩,
    ?_, ?_, rfl, rfl, rfl, rfl, rfl, rfl, rfl⟩
  · rw [he]
    exact hr
  · rw [he]

/-- C1 witness: a concrete 1-frame 2x1 encode reads back header
`frame_count = 1, width = 2, height = 1` and the metadata words
`13, 10, 11, 12` unchanged. -/
theorem header_roundtrip_witness :
    ∃ v : BNRView,
      readBNR (tif2bnr [[some 0, some 0, some 0, some 3]] [[[1, 2]]] 10 11 12 13).written =
        some v ∧
      (tif2bnr [[some 0, some 0, some 0, some 3]] [[[1, 2]]] 10 11 12 13).err = none ∧
      v.nImages = 1 ∧ v.width = 2 ∧ v.height = 1 ∧
      v.pxSize = 13 ∧ v.wvl = 10 ∧ v.rIdx1 = 11 ∧ v.rIdx2 = 12 := by
  have h := header_roundtrip [[some 0, some 0, some 0, some 3]] [[[1, 2]]] 10 11 12 13 2 1
    (by decide) (by decide) (by decide) (by decide) (by decide)
    (by decide) (by decide) (by decide)
  simpa using h

theorem chunkRows_append (w h : Nat) (s extra : List Word) (hle : h * w ≤ s.length) :
    chunkRows w h (s ++ extra) = chunkRows w h s := by
  induction h generalizing s with
  | zero => rfl
  | succ h ih =>
    have hmul : (h + 1) * w = h * w + w := Nat.succ_mul h w
    have hw : w ≤ s.length := by omega
    rw [chunkRows, chunkRows, List.take_append_of_le_length hw,
      List.drop_append_of_le_length hw, ih (s.drop w) (by simp [List.length_drop]; omega)]

theorem readBNR_append (s extra : List Word) (v : BNRView) (h : readBNR s = some v) :
    readBNR (s ++ extra) = some v := by
  rcases s with _ | ⟨a, s⟩
  · simp [readBNR] at h
  rcases s with _ | ⟨b, s⟩
  · simp [readBNR] at h
  rcases s with _ | ⟨c, s⟩
  · simp [readBNR] at h
  rcases s with _ | ⟨d, s⟩
  · simp [readBNR] at h
  rcases s with _ | ⟨e, s⟩
  · simp [readBNR] at h
  rcases s with _ | ⟨f, s⟩
  · simp [readBNR] at h
  rcases s with _ | ⟨g, rest⟩
  · simp [readBNR] at h
  simp only [readBNR, List.cons_append] at h ⊢
  by_cases h1 : (toI32 a).toNat ≤ rest.length
  · rw [if_pos h1] at h
    rw [if_pos (by simp only [List.length_append]; omega)]
    by_cases h2 : toI32 b < 0 ∨ toI32 c < 0
    · rw [if_pos h2] at h
      exact absurd h (by simp)
    · rw [if_neg h2] at h ⊢
      by_cases h3 : (toI32 c).toNat * (toI32 b).toNat ≤ (rest.drop (toI32 a).toNat).length
      · rw [if_pos h3] at h
        rw [List.take_append_of_le_length h1, List.drop_append_of_le_length h1]
        rw [if_pos (by simp only [List.length_append]; omega)]
        rw [chunkRows_append _ _ _ _ h3]
        exact h
      · rw [if_neg h3] at h
        exact absurd h (by simp)
  · rw [if_neg h1] at h
    exact absurd h (by simp)

theorem min?_isSome_of_ne_nil (l : List Int) (h : l ≠ []) : ∃ mn, l.min? = some mn := by
  match e : l.min? with
  | some mn => exact ⟨mn, rfl⟩
  | none => exact absurd (List.min?_eq_none_iff.mp e) h

theorem max?_isSome_of_ne_nil (l : List Int) (h : l ≠ []) : ∃ mx, l.max? = some mx := by
  match e : l.max? with
  | some mx => exact ⟨mx, rfl⟩
  | none => exact absurd (List.max?_eq_none_iff.mp e) h

/-- C5: for a container the BNR check can read, the check flags a range
violation exactly when the minimum first-frame sample is below `-100` or the
maximum is above `100` (scaled by `2 ^ 149`; both bounds exclusive, so a
sample at exactly `±100` does not trigger); words beyond those the check
reads — all frames after the first — never change the verdict; and in the
checking loop a flagged file only adds its path to the report while the
remaining files are still processed. -/
theorem range_check_spec (s : List Word) (v : BNRView)
    (h1 : readBNR s = some v) (h2 : v.firstFrame.flatten ≠ [])
    (_hfin : ∀ x ∈ v.firstFrame.flatten, FiniteF32 x) :
    (∀ extra, bnrVerdict (s ++ extra) = bnrVerdict s) ∧
    (bnrVerdict s = some true ↔
      ((v.firstFrame.flatten.map f32scaled).min?.getD 0 < sampleLo ∨
       (v.firstFrame.flatten.map f32scaled).max?.getD 0 > sampleHi)) ∧
    (∀ (path : String) (rest : List (String × List Word)) (l : List String),
      checkBNRFiles rest = some l →
      checkBNRFiles ((path, s) :: rest) =
        some (if bnrVerdict s = some true then path :: l else l)) := by
  have hne : (v.firstFrame.flatten.map f32scaled) ≠ [] := by
    simpa using h2
  obtain ⟨mn, hmn⟩ := min?_isSome_of_ne_nil _ hne
  obtain ⟨mx, hmx⟩ := max?_isSome_of_ne_nil _ hne
  have hv : bnrVerdict s =
      some (decide (mn < sampleLo) || decide (mx > sampleHi)) := by
    unfold bnrVerdict
    rw [h1]
    simp only [hmn, hmx]
  refine ⟨?_, ?_, ?_⟩
  · intro extra
    unfold bnrVerdict
    rw [h1, readBNR_append s extra v h1]
  · rw [hv, hmn, hmx]
    simp
  · intro path rest l hrest
    unfold checkBNRFiles
    rw [hv, hrest]
    cases hb : (decide (mn < sampleLo) || decide (mx > sampleHi)) <;> simp [hv, hb]

/-- C5 witness: on a concrete 1-frame 2x2 container holding a sample at
`150.0` (and one at exactly `100.0`), appending extra words does not change
the verdict, the verdict is the min/max range test, and the checking loop
reports the file's name. -/
theorem range_check_spec_witness :
    bnrVerdict (bnrSample ++ [7, 7, 7]) = bnrVerdict bnrSample ∧
    (bnrVerdict bnrSample = some true ↔
      ((bnrView0.firstFrame.flatten.map f32scaled).min?.getD 0 < sampleLo ∨
       (bnrView0.firstFrame.flatten.map f32scaled).max?.getD 0 > sampleHi)) ∧
    checkBNRFiles [("w001.bnr", bnrSample)] = some ["w001.bnr"] := by
  have h := range_check_spec bnrSample bnrView0 (by decide) (by decide) (by decide)
  refine ⟨h.1 [7, 7, 7], h.2.1, ?_⟩
  rw [h.2.2 "w001.bnr" [] [] rfl]
  have hv : bnrVerdict bnrSample = some true := by decide
  rw [if_pos hv]

/-- C3 (code bug): the pre-existence confirmation block of `run_process`
builds the BNR path for well `i` with `str(i)` (line 313) while the
processing loop builds it with `str(i + 1)` (line 401), so the BNR file of
the fourth well (`w004`) is never among the checked paths — it is removed
and recreated (lines 406-409) with no confirmation.  Evaluated at a
concrete GUI state (all fields empty). -/
theorem bnr_overwrite_check_gap :
    createdBnrPath g0 3 ∉ (List.range 4).map (checkedBnrPath g0) ∧
    checkedBnrPath g0 3 ≠ createdBnrPath g0 3 := by
  decide

/-- C6: in the automatic pipeline the destination of the Sequence
Compositor is removed (when present) before `bin2tif` appends into it, so
the produced stack is exactly the decoded pages of the current run — never
an extension of a stale artifact — and the outcome is independent of
whatever was at the destination before. -/
theorem compositor_fresh (decode : String → Page) (existing : Option (List Page))
    (listing : List String) (h : binFilter listing ≠ []) :
    (composeStepFresh decode existing listing).1 = some (bin2tifFrames decode listing) ∧
    composeStepFresh decode existing listing = composeStepFresh decode none listing := by
  cases existing <;> simp [composeStepFresh, removeIfPresent, bin2tifFS, h]

/-- C6 witness: with a stale page at the destination and one `.bin` input,
the fresh-compose step yields exactly the current run's pages. -/
theorem compositor_fresh_witness :
    (composeStepFresh (fun _ => [[0]]) (some [[[9]]]) ["a.bin"]).1 =
      some (bin2tifFrames (fun _ => [[0]]) ["a.bin"]) ∧
    composeStepFresh (fun _ => [[0]]) (some [[[9]]]) ["a.bin"] =
      composeStepFresh (fun _ => [[0]]) none ["a.bin"] :=
  compositor_fresh (fun _ => [[0]]) (some [[[9]]]) ["a.bin"] (by decide)

/-- C8: the Sequence Compositor's page order is the ascending lexicographic
order of the `.bin` filenames, independent of the OS directory listing
order: any two permutations of the same listing produce identical page
lists. -/
theorem composition_order_independent (decode : String → Page) (l1 l2 : List String)
    (h : l1.Perm l2) :
    bin2tifFrames decode l1 = bin2tifFrames decode l2 ∧
    List.Sorted pyLe (sortedBinFiles l1) := by
  have hperm : (binFilter l1).Perm (binFilter l2) := h.filter _
  have hs : sortedBinFiles l1 = sortedBinFiles l2 :=
    List.eq_of_perm_of_sorted
      (((List.perm_insertionSort pyLe (binFilter l1)).trans hperm).trans
        (List.perm_insertionSort pyLe (binFilter l2)).symm)
      (List.sorted_insertionSort pyLe _) (List.sorted_insertionSort pyLe _)
  exact ⟨by unfold bin2tifFrames; rw [hs], List.sorted_insertionSort pyLe _⟩

/-- C8 witness: two concrete listing orders of the same files produce the
same page list, and the emitted filename order is sorted. -/
theorem composition_order_independent_witness :
    bin2tifFrames (fun _ => []) ["b.bin", "a.bin", "c.txt"] =
      bin2tifFrames (fun _ => []) ["a.bin", "c.txt", "b.bin"] ∧
    List.Sorted pyLe (sortedBinFiles ["b.bin", "a.bin", "c.txt"]) :=
  composition_order_independent (fun _ => []) ["b.bin", "a.bin", "c.txt"]
    ["a.bin", "c.txt", "b.bin"] (by decide)

/-- C4 counterexample: on a log line in which `AffineTransform` also occurs
before the marker, the translator takes `split("AffineTransform")[1]` — the
text between the two occurrences, not the substring after the marker — and
dies with `IndexError` on the missing token, so no rewritten file is
produced at all, while the claim's parsing rule happily yields `"7,8"`.
The claim's universally quantified description is therefore false on this
log. -/
theorem log_translation_claim_false :
    translateLog [badLogLine] = none ∧
    specTranslateLog [badLogLine] = SIFT_paras_string.data ++ "7,8\n".data ∧
    translateLog [badLogLine] ≠ some (specTranslateLog [badLogLine]) :=
  ⟨by decide, by decide, by decide⟩

theorem shiftOf_count (lines : List (List Char)) :
    (lines.filterMap shiftOf).length =
      (lines.filter (containsSubL markerChars)).length := by
  induction lines with
  | nil => rfl
  | cons line rest ih =>
    by_cases hm : containsSubL markerChars line = true
    · simp [shiftOf, hm, List.filterMap_cons, List.filter_cons, ih]
    · simp [shiftOf, hm, List.filterMap_cons, List.filter_cons, ih]

/-- C4 (amended): for every registration log in which each marker line
contains `AffineTransform` exactly once in its stripped form (equivalently:
the code's `split("AffineTransform")[1]` segment yields at least 6 comma
tokens), the rewritten file is exactly the fixed documentation block
followed, in original order, by one `tx,ty` line per marker line (tokens 2
and 5 of the bracket-stripped, comma-split, trimmed segment); lines without
the marker are ignored, and a log with no marker line yields an empty shift
section with no error. -/
theorem log_translation_amended (lines : List (List Char))
    (h : ∀ line ∈ lines, LineOk line) :
    translateLog lines =
      some (SIFT_paras_string.data ++ (lines.filterMap shiftOf).flatten) ∧
    (lines.filterMap shiftOf).length =
      (lines.filter (containsSubL markerChars)).length := by
  have key : buildShifts lines = some ((lines.filterMap shiftOf).flatten) := by
    induction lines with
    | nil => rfl
    | cons line rest ih =>
      have hok := h line (by simp)
      have hrest := ih fun x hx => h x (by simp [hx])
      by_cases hm : containsSubL markerChars line = true
      · obtain ⟨hsome, hlen⟩ := hok hm
        obtain ⟨aaa, ha⟩ := Option.isSome_iff_exists.mp hsome
        rw [ha] at hlen
        simp only [Option.getD_some] at hlen
        have h2 : aaa[2]? = some (aaa.getD 2 []) := by
          rw [List.getD_eq_getElem?_getD, List.getElem?_eq_getElem (by omega : 2 < aaa.length)]
          rfl
        have h5 : aaa[5]? = some (aaa.getD 5 []) := by
          rw [List.getD_eq_getElem?_getD, List.getElem?_eq_getElem (by omega : 5 < aaa.length)]
          rfl
        have hline : lineShift line =
            some (some (aaa.getD 2 [] ++ [','] ++ aaa.getD 5 [] ++ ['\n'])) := by
          unfold lineShift
          rw [if_pos hm, ha]
          simp only [h2, h5]
        have hsh : shiftOf line =
            some (aaa.getD 2 [] ++ [','] ++ aaa.getD 5 [] ++ ['\n']) := by
          unfold shiftOf
          rw [if_pos hm, ha]
          rfl
        unfold buildShifts
        rw [hline, hrest, List.filterMap_cons, hsh]
        simp
      · have hline : lineShift line = some none := by
          unfold lineShift
          rw [if_neg hm]
        have hsh : shiftOf line = none := by
          unfold shiftOf
          rw [if_neg hm]
        unfold buildShifts
        rw [hline, List.filterMap_cons, hsh]
        exact hrest
  constructor
  · unfold translateLog
    rw [key]
  · exact shiftOf_count lines

/-- C4 witness: a log with one well-formed matrix line and one noise line
rewrites to the documentation block plus the single extracted `tx,ty`
line. -/
theorem log_translation_amended_witness :
    translateLog
        ["Transformation Matrix: AffineTransform[[1,0,5.25],[0,1,-3.1]]".data,
         "no marker here".data] =
      some (SIFT_paras_string.data ++
        ((["Transformation Matrix: AffineTransform[[1,0,5.25],[0,1,-3.1]]".data,
           "no marker here".data].filterMap shiftOf).flatten)) ∧
    ((["Transformation Matrix: AffineTransform[[1,0,5.25],[0,1,-3.1]]".data,
       "no marker here".data].filterMap shiftOf).length =
      (["Transformation Matrix: AffineTransform[[1,0,5.25],[0,1,-3.1]]".data,
        "no marker here".data].filter (containsSubL markerChars)).length) :=
  log_translation_amended
    ["Transformation Matrix: AffineTransform[[1,0,5.25],[0,1,-3.1]]".data,
     "no marker here".data] (by decide)

end DHM
